import Mathlib

/-!
Verification of the DRSA (Dominance-based Rough Set Approach) engine of the
MOOP repository, file src/imo_drsa/drsa.py.

The embedding is shallow: each method of the Python class DRSA becomes a Lean
function over a `DRSA` record holding the fitted state (objective matrix,
decision attribute, criteria tuple, direction).  Matrix entries and decision
classes are modelled as integers: the Python code stores NumPy floats but only
ever compares, negates and tests them for equality, so any linearly ordered
carrier reproduces its behaviour exactly.  The quality score, supports and
confidences -- Python floats obtained as quotients of small nonnegative
integer counts by N -- are modelled as rationals: for a fixed denominator,
IEEE division preserves both the order and the equality of such quotients, so
every comparison the code performs on them is mirrored faithfully.

The not-fitted guard (Python: assert self.is_fit at the head of every query)
is modelled by a separate `Engine` wrapper whose queries return
`Except DRSAError`; the plain `DRSA` record is the state after `fit`.
-/

/-- Direction of the class unions, the Python string field
`self.direction` with its two documented values. -/
inductive Direction where
  | up
  | down
deriving DecidableEq

/-- Fitted state of the Python `DRSA` class, as set by `fit`:
`F_pareto` (N objects by criteria, gain type), `decision_attribute`
(one class label per object), the configured `criteria` tuple of column
indices, and `direction`. -/
structure DRSA where
  N : ℕ
  F : Fin N → ℕ → ℤ
  decision_attribute : Fin N → ℤ
  criteria : List ℕ
  direction : Direction

namespace DRSA

/-- `self.m = decision_attribute.max()` (fit).  The fold seed 0 is never
observed: `m` is only consumed through `classRange`, which is empty both for
`max < 2` and for the seeded value 0, and NumPy raises on an empty array (so a
fitted engine has `N > 0`). -/
def m (e : DRSA) : ℤ :=
  ((List.finRange e.N).map e.decision_attribute).foldr max 0

/-- `positive_cone` : mask[y, x] accumulated over `criteria` as
`vals[:, None] >= vals[None, :]`, i.e. `F[y,i] >= F[x,i]` for every listed
criterion. -/
def positive_cone (e : DRSA) (criteria : List ℕ) (y x : Fin e.N) : Bool :=
  criteria.all fun i => decide (e.F x i ≤ e.F y i)

/-- `negative_cone` : mask[y, x] accumulated over `criteria` as
`vals[:, None] <= vals[None, :]`. -/
def negative_cone (e : DRSA) (criteria : List ℕ) (y x : Fin e.N) : Bool :=
  criteria.all fun i => decide (e.F y i ≤ e.F x i)

/-- `lower_approx_up` : `np.all(~cone | (decision_attribute[:, None] >= threshold), axis=0)`
with `cone = positive_cone(criteria)`. -/
def lower_approx_up (e : DRSA) (criteria : List ℕ) (threshold : ℤ) (x : Fin e.N) : Bool :=
  (List.finRange e.N).all fun y =>
    !(e.positive_cone criteria y x) || decide (threshold ≤ e.decision_attribute y)

/-- `upper_approx_up` : `np.any(cone & (decision_attribute[:, None] >= threshold), axis=0)`
with `cone = negative_cone(criteria)`. -/
def upper_approx_up (e : DRSA) (criteria : List ℕ) (threshold : ℤ) (x : Fin e.N) : Bool :=
  (List.finRange e.N).any fun y =>
    e.negative_cone criteria y x && decide (threshold ≤ e.decision_attribute y)

/-- `lower_approx_down` : `np.all(~cone | (decision_attribute[:, None] <= threshold), axis=0)`
with `cone = negative_cone(criteria)`. -/
def lower_approx_down (e : DRSA) (criteria : List ℕ) (threshold : ℤ) (x : Fin e.N) : Bool :=
  (List.finRange e.N).all fun y =>
    !(e.negative_cone criteria y x) || decide (e.decision_attribute y ≤ threshold)

/-- `upper_approx_down` : `np.any(cone & (decision_attribute[:, None] <= threshold), axis=0)`
with `cone = positive_cone(criteria)`. -/
def upper_approx_down (e : DRSA) (criteria : List ℕ) (threshold : ℤ) (x : Fin e.N) : Bool :=
  (List.finRange e.N).any fun y =>
    e.positive_cone criteria y x && decide (e.decision_attribute y ≤ threshold)

/-- The threshold list `range(2, m + 1)` traversed by `quality`. -/
def classRange (m : ℤ) : List ℤ :=
  (List.range (m - 1).toNat).map fun k => 2 + (k : ℤ)

/-- One object of the running `consistent_mask` of `quality`: object `x` is
never in the boundary `upper & ~lower` for any threshold `t` in
`range(2, m + 1)`, with the approximations chosen by `direction`. -/
def consistentObj (e : DRSA) (criteria : List ℕ) (x : Fin e.N) : Bool :=
  (classRange e.m).all fun t =>
    match e.direction with
    | .up => !(e.upper_approx_up criteria t x && !(e.lower_approx_up criteria t x))
    | .down => !(e.upper_approx_down criteria t x && !(e.lower_approx_down criteria t x))

/-- `quality` : `float(consistent_mask.sum()) / self.N`. -/
def quality (e : DRSA) (criteria : List ℕ) : ℚ :=
  (((List.finRange e.N).countP fun x => e.consistentObj criteria x : ℕ) : ℚ) / (e.N : ℚ)

end DRSA

/-- `itertools.combinations l r` : all length-`r` subsequences of `l` in the
order itertools emits them (those containing the head first). -/
def combinations {α : Type} : ℕ → List α → List (List α)
  | 0, _ => [[]]
  | _ + 1, [] => []
  | r + 1, a :: l => ((combinations r l).map fun s => a :: s) ++ combinations (r + 1) l

namespace DRSA

/-- Body of the inner loop of `find_reducts`: append `subset` when its quality
equals the full quality and no already accepted reduct is a set-inclusion
subset of it (`set(red).issubset(subset)`). -/
def acceptReduct (e : DRSA) (fullq : ℚ) (reducts : List (List ℕ)) (subset : List ℕ) :
    List (List ℕ) :=
  if e.quality subset = fullq ∧
      (reducts.any fun red => red.all fun a => decide (a ∈ subset)) = false then
    reducts ++ [subset]
  else reducts

/-- The outer loop of `find_reducts` over subset sizes: stop at the first size
whose accumulated reduct list is non-empty. -/
def findReductsGo (e : DRSA) (fullq : ℚ) : List ℕ → List (List ℕ)
  | [] => []
  | r :: rs =>
    let reducts := (combinations r e.criteria).foldl (e.acceptReduct fullq) []
    if reducts.isEmpty then e.findReductsGo fullq rs else reducts

/-- `find_reducts` : sizes `range(1, len(criteria) + 1)`, full-criteria
fallback when nothing was found. -/
def find_reducts (e : DRSA) : List (List ℕ) :=
  let res := e.findReductsGo (e.quality e.criteria) (List.range' 1 e.criteria.length)
  if res.isEmpty then [e.criteria] else res

/-- `core` : `reducts = reducts or self.find_reducts()` -- an empty argument
list is falsy in Python, hence also replaced by `find_reducts()` -- then the
set intersection of all reducts, returned sorted (`tuple(sorted(core_set))`). -/
def core (e : DRSA) (reducts : List (List ℕ)) : List ℕ :=
  let reducts := if reducts.isEmpty then e.find_reducts else reducts
  match reducts with
  | [] => []
  | r0 :: rest =>
    (rest.foldl (fun s red => s ∩ red.toFinset) r0.toFinset).sort (· ≤ ·)

end DRSA

/-- The conclusion string shared by both branches of `induce_decision_rules`
(the source literal is the phrase `x is` followed by the word good in single
quotes; its exact spelling is never inspected, only compared for equality). -/
def goodConcl : String := "x is good"

/-- Kind tag of rules induced from the lower approximation. -/
def certainKind : String := "certain"

/-- Kind tag of rules induced from the boundary. -/
def possibleKind : String := "possible"

/-- The content of the description string built by `make_rule_description`:
kind, the rendered conditions (`f_{idx+1}(x) op {-val}` keeps the pair
`(idx + 1, -val)`; the comparison operator is a function of the fixed
`direction`, recorded in `dirOp`), conclusion, and the support and confidence
that are printed to two decimals.  Equality of these records coincides with
equality of the Python strings within one engine: the rendering of the
condition list and of the kind is injective, and two rules with equal
condition lists have equal profiles, hence exactly equal support and
confidence, so the two-decimal rounding can never merge distinct records. -/
structure Desc where
  kind : String
  conds : List (ℕ × ℤ)
  dirOp : Direction
  concl : String
  support : ℚ
  confidence : ℚ
deriving DecidableEq

/-- A decision rule tuple
`(profile, concl, support, confidence, kind, direction, desc)`.  The Python
profile is a dict keyed by the criteria column indices in their tuple order;
it is modelled as the corresponding association list (the data model requires
the criteria indices to be unique, and even when they are not, duplicated
keys carry the same value, so every lookup agrees with the dict). -/
structure Rule where
  profile : List (ℕ × ℤ)
  concl : String
  support : ℚ
  confidence : ℚ
  kind : String
  direction : Direction
  desc : Desc
deriving DecidableEq

namespace DRSA

/-- `make_rule_description`, with the string replaced by its content
(see `Desc`). -/
def make_rule_description (e : DRSA) (profile : List (ℕ × ℤ)) (conclusion : String)
    (support confidence : ℚ) (kind : String) : Desc :=
  ⟨kind, profile.map fun p => (p.1 + 1, -p.2), e.direction, conclusion, support, confidence⟩

/-- The comparison `comp` / `cmp_op` selected by the direction:
`operator.ge` for up, `operator.le` for down. -/
def dirComp (e : DRSA) : ℤ → ℤ → Bool :=
  match e.direction with
  | .up => fun a b => decide (b ≤ a)
  | .down => fun a b => decide (a ≤ b)

/-- The premise mask of a profile: `comp(F[:, i], val)` accumulated over the
profile items. -/
def premiseMask (e : DRSA) (comp : ℤ → ℤ → Bool) (profile : List (ℕ × ℤ)) (y : Fin e.N) :
    Bool :=
  profile.all fun p => comp (e.F y p.1) p.2

/-- `is_robust` : some object satisfies the premise by exact equality on every
profiled criterion (`base_mask`) and satisfies the premise mask. -/
def is_robust (e : DRSA) (rule : Rule) : Bool :=
  (List.finRange e.N).any fun y =>
    (rule.profile.all fun p => decide (e.F y p.1 = p.2)) &&
      e.premiseMask e.dirComp rule.profile y

/-- `subsumes(r1, r2)` : True when `r2` subsumes `r1` -- same conclusion, the
key set of `r2`'s profile contained in `r1`'s, and `r2`'s thresholds no
stricter on every shared criterion (`<=` for up, `>=` for down).  The lookup
of `p1[i]` cannot miss after the key-set check, so the impossible branch
returns `false`. -/
def subsumes (e : DRSA) (r1 r2 : Rule) : Bool :=
  if r1.concl ≠ r2.concl then false
  else if (r2.profile.all fun p => r1.profile.any fun q => decide (q.1 = p.1)) = false then
    false
  else
    match e.direction with
    | .up => r2.profile.all fun p =>
        match r1.profile.lookup p.1 with
        | some v => decide (p.2 ≤ v)
        | none => false
    | .down => r2.profile.all fun p =>
        match r1.profile.lookup p.1 with
        | some v => decide (v ≤ p.2)
        | none => false

/-- The rule built for one supporting object `idx` of kind `kind` inside
`induce_decision_rules`: profile from the object's row, support and
confidence as the Python float quotients (the premise mask always contains
`idx` itself, so the confidence denominator is never zero). -/
def objectRule (e : DRSA) (criteria : List ℕ) (threshold : ℤ) (kind : String)
    (idx : Fin e.N) : Rule :=
  let profile := criteria.map fun i => (i, e.F idx i)
  let maskCount := (List.finRange e.N).countP fun y => e.premiseMask e.dirComp profile y
  let support : ℚ := (maskCount : ℚ) / (e.N : ℚ)
  let good : Fin e.N → Bool := fun y =>
    match e.direction with
    | .up => decide (threshold ≤ e.decision_attribute y)
    | .down => decide (e.decision_attribute y ≤ threshold)
  let confCount :=
    (List.finRange e.N).countP fun y => e.premiseMask e.dirComp profile y && good y
  let confidence : ℚ := (confCount : ℚ) / (maskCount : ℚ)
  let desc := e.make_rule_description profile goodConcl support confidence kind
  ⟨profile, goodConcl, support, confidence, kind, e.direction, desc⟩

/-- One step of the dedup-and-filter loop of `induce_decision_rules`: skip a
rule whose description was already seen, otherwise record the description and
keep the rule when `is_robust` accepts it. -/
def dedupStep (e : DRSA) (st : List Desc × List Rule) (rule : Rule) :
    List Desc × List Rule :=
  if rule.desc ∈ st.1 then st
  else (st.1 ++ [rule.desc], if e.is_robust rule then st.2 ++ [rule] else st.2)

/-- Steps 1-6 of `induce_decision_rules` (before the minimality filter):
certain rules from `np.where(lower)[0]`, possible rules from
`np.where(upper & ~lower)[0]`, deduplicated by description and filtered by
robustness.  An empty `criteria` argument is falsy in Python and falls back to
the configured criteria. -/
def rawRules (e : DRSA) (criteria0 : List ℕ) (threshold : ℤ) : List Rule :=
  let criteria := if criteria0.isEmpty then e.criteria else criteria0
  let lower : Fin e.N → Bool := fun x =>
    match e.direction with
    | .up => e.lower_approx_up criteria threshold x
    | .down => e.lower_approx_down criteria threshold x
  let upper : Fin e.N → Bool := fun x =>
    match e.direction with
    | .up => e.upper_approx_up criteria threshold x
    | .down => e.upper_approx_down criteria threshold x
  let certain :=
    ((List.finRange e.N).filter fun x => lower x).map (e.objectRule criteria threshold certainKind)
  let possible :=
    ((List.finRange e.N).filter fun x => upper x && !(lower x)).map
      (e.objectRule criteria threshold possibleKind)
  ((certain ++ possible).foldl e.dedupStep ([], [])).2

/-- `induce_decision_rules` : the raw rules, subsumption-filtered when
`minimal` is set (a rule `r1` is kept iff no other rule subsumes it). -/
def induce_decision_rules (e : DRSA) (criteria0 : List ℕ) (threshold : ℤ)
    (minimal : Bool) : List Rule :=
  let rules := e.rawRules criteria0 threshold
  if minimal then
    rules.filter fun r1 => !(rules.any fun r2 => decide (r2 ≠ r1) && e.subsumes r1 r2)
  else rules

end DRSA

/-- Errors of the guarded engine interface; `notFitted` models the
`assert self.is_fit` guard (the spec's NotFittedError). -/
inductive DRSAError where
  | notFitted
deriving DecidableEq

/-- The engine object across its lifetime: `__init__` leaves it unfitted
(`is_fit = False`), `fit` installs the configuration. -/
structure Engine where
  fitted : Option DRSA

/-- `DRSA.__init__()` : `self.is_fit = False`. -/
def Engine.init : Engine := ⟨none⟩

/-- `fit` : install the configuration and set `is_fit = True`. -/
def Engine.fit (_e : Engine) (d : DRSA) : Engine := ⟨some d⟩

namespace Engine

/-- Guarded `positive_cone`, returning the N by N boolean matrix. -/
def positive_cone (e : Engine) (criteria : List ℕ) :
    Except DRSAError (List (List Bool)) :=
  match e.fitted with
  | none => .error .notFitted
  | some d => .ok ((List.finRange d.N).map fun y =>
      (List.finRange d.N).map fun x => d.positive_cone criteria y x)

/-- Guarded `negative_cone`. -/
def negative_cone (e : Engine) (criteria : List ℕ) :
    Except DRSAError (List (List Bool)) :=
  match e.fitted with
  | none => .error .notFitted
  | some d => .ok ((List.finRange d.N).map fun y =>
      (List.finRange d.N).map fun x => d.negative_cone criteria y x)

/-- Guarded `lower_approx_up`. -/
def lower_approx_up (e : Engine) (criteria : List ℕ) (threshold : ℤ) :
    Except DRSAError (List Bool) :=
  match e.fitted with
  | none => .error .notFitted
  | some d => .ok ((List.finRange d.N).map fun x => d.lower_approx_up criteria threshold x)

/-- Guarded `upper_approx_up`. -/
def upper_approx_up (e : Engine) (criteria : List ℕ) (threshold : ℤ) :
    Except DRSAError (List Bool) :=
  match e.fitted with
  | none => .error .notFitted
  | some d => .ok ((List.finRange d.N).map fun x => d.upper_approx_up criteria threshold x)

/-- Guarded `lower_approx_down`. -/
def lower_approx_down (e : Engine) (criteria : List ℕ) (threshold : ℤ) :
    Except DRSAError (List Bool) :=
  match e.fitted with
  | none => .error .notFitted
  | some d => .ok ((List.finRange d.N).map fun x => d.lower_approx_down criteria threshold x)

/-- Guarded `upper_approx_down`. -/
def upper_approx_down (e : Engine) (criteria : List ℕ) (threshold : ℤ) :
    Except DRSAError (List Bool) :=
  match e.fitted with
  | none => .error .notFitted
  | some d => .ok ((List.finRange d.N).map fun x => d.upper_approx_down criteria threshold x)

/-- Guarded `quality`. -/
def quality (e : Engine) (criteria : List ℕ) : Except DRSAError ℚ :=
  match e.fitted with
  | none => .error .notFitted
  | some d => .ok (d.quality criteria)

/-- Guarded `find_reducts`. -/
def find_reducts (e : Engine) : Except DRSAError (List (List ℕ)) :=
  match e.fitted with
  | none => .error .notFitted
  | some d => .ok d.find_reducts

/-- Guarded `core`. -/
def core (e : Engine) (reducts : List (List ℕ)) : Except DRSAError (List ℕ) :=
  match e.fitted with
  | none => .error .notFitted
  | some d => .ok (d.core reducts)

/-- Guarded `induce_decision_rules`. -/
def induce_decision_rules (e : Engine) (criteria0 : List ℕ) (threshold : ℤ)
    (minimal : Bool) : Except DRSAError (List Rule) :=
  match e.fitted with
  | none => .error .notFitted
  | some d => .ok (d.induce_decision_rules criteria0 threshold minimal)

end Engine

/-- The concrete scenario of the spec: `F_pareto = [[1],[2],[3]]` (one
criterion, column 0), `decision_attribute = [1,2,3]`, `criteria = (0,)`,
`direction = "up"`. -/
def scenario : DRSA :=
  ⟨3, fun y i => if i = 0 then ((y : ℕ) : ℤ) + 1 else 0,
   fun y => ((y : ℕ) : ℤ) + 1, [0], .up⟩

/-- A second concrete engine: two objects `(0, 1)` and `(1, 0)` on two
criteria, both of decision class 2, `direction = "up"`. -/
def scenario2 : DRSA :=
  ⟨2, fun y i => if i = 0 then ((y : ℕ) : ℤ) else 1 - ((y : ℕ) : ℤ),
   fun _ => 2, [0, 1], .up⟩

/-- The certain rule induced from object 0 of `scenario2`. -/
def ruleA : Rule := scenario2.objectRule [0, 1] 2 certainKind ⟨0, by decide⟩

/-- The certain rule induced from object 1 of `scenario2`. -/
def ruleB : Rule := scenario2.objectRule [0, 1] 2 certainKind ⟨1, by decide⟩

namespace DRSA

theorem positive_cone_iff (e : DRSA) (P : List ℕ) (y x : Fin e.N) :
    e.positive_cone P y x = true ↔ ∀ i ∈ P, e.F x i ≤ e.F y i := by
  simp [positive_cone]

theorem negative_cone_iff (e : DRSA) (P : List ℕ) (y x : Fin e.N) :
    e.negative_cone P y x = true ↔ ∀ i ∈ P, e.F y i ≤ e.F x i := by
  simp [negative_cone]

theorem lower_approx_up_iff (e : DRSA) (P : List ℕ) (t : ℤ) (x : Fin e.N) :
    e.lower_approx_up P t x = true ↔
      ∀ y, e.positive_cone P y x = true → t ≤ e.decision_attribute y := by
  simp only [lower_approx_up, List.all_eq_true, List.mem_finRange, Bool.or_eq_true,
    Bool.not_eq_true', decide_eq_true_eq, forall_true_left]
  constructor
  · intro h y hc
    rcases h y with h1 | h2
    · rw [hc] at h1; cases h1
    · exact h2
  · intro h y
    by_cases hc : e.positive_cone P y x = true
    · exact Or.inr (h y hc)
    · exact Or.inl (Bool.eq_false_iff.mpr hc)

theorem upper_approx_up_iff (e : DRSA) (P : List ℕ) (t : ℤ) (x : Fin e.N) :
    e.upper_approx_up P t x = true ↔
      ∃ y, e.negative_cone P y x = true ∧ t ≤ e.decision_attribute y := by
  simp [upper_approx_up, List.any_eq_true]

theorem lower_approx_down_iff (e : DRSA) (P : List ℕ) (t : ℤ) (x : Fin e.N) :
    e.lower_approx_down P t x = true ↔
      ∀ y, e.negative_cone P y x = true → e.decision_attribute y ≤ t := by
  simp only [lower_approx_down, List.all_eq_true, List.mem_finRange, Bool.or_eq_true,
    Bool.not_eq_true', decide_eq_true_eq, forall_true_left]
  constructor
  · intro h y hc
    rcases h y with h1 | h2
    · rw [hc] at h1; cases h1
    · exact h2
  · intro h y
    by_cases hc : e.negative_cone P y x = true
    · exact Or.inr (h y hc)
    · exact Or.inl (Bool.eq_false_iff.mpr hc)

theorem upper_approx_down_iff (e : DRSA) (P : List ℕ) (t : ℤ) (x : Fin e.N) :
    e.upper_approx_down P t x = true ↔
      ∃ y, e.positive_cone P y x = true ∧ e.decision_attribute y ≤ t := by
  simp [upper_approx_down, List.any_eq_true]

theorem positive_cone_mono (e : DRSA) {P Q : List ℕ} (h : P ⊆ Q) {y x : Fin e.N}
    (hc : e.positive_cone Q y x = true) : e.positive_cone P y x = true := by
  rw [positive_cone_iff] at *
  exact fun i hi => hc i (h hi)

theorem negative_cone_mono (e : DRSA) {P Q : List ℕ} (h : P ⊆ Q) {y x : Fin e.N}
    (hc : e.negative_cone Q y x = true) : e.negative_cone P y x = true := by
  rw [negative_cone_iff] at *
  exact fun i hi => hc i (h hi)

theorem lower_approx_up_mono (e : DRSA) {P Q : List ℕ} (h : P ⊆ Q) {t : ℤ} {x : Fin e.N}
    (hl : e.lower_approx_up P t x = true) : e.lower_approx_up Q t x = true := by
  rw [lower_approx_up_iff] at *
  exact fun y hc => hl y (e.positive_cone_mono h hc)

theorem upper_approx_up_anti (e : DRSA) {P Q : List ℕ} (h : P ⊆ Q) {t : ℤ} {x : Fin e.N}
    (hu : e.upper_approx_up Q t x = true) : e.upper_approx_up P t x = true := by
  rw [upper_approx_up_iff] at *
  obtain ⟨y, hc, hd⟩ := hu
  exact ⟨y, e.negative_cone_mono h hc, hd⟩

theorem lower_approx_down_mono (e : DRSA) {P Q : List ℕ} (h : P ⊆ Q) {t : ℤ} {x : Fin e.N}
    (hl : e.lower_approx_down P t x = true) : e.lower_approx_down Q t x = true := by
  rw [lower_approx_down_iff] at *
  exact fun y hc => hl y (e.negative_cone_mono h hc)

theorem upper_approx_down_anti (e : DRSA) {P Q : List ℕ} (h : P ⊆ Q) {t : ℤ} {x : Fin e.N}
    (hu : e.upper_approx_down Q t x = true) : e.upper_approx_down P t x = true := by
  rw [upper_approx_down_iff] at *
  obtain ⟨y, hc, hd⟩ := hu
  exact ⟨y, e.positive_cone_mono h hc, hd⟩

theorem consistentObj_up (e : DRSA) (hd : e.direction = .up) (P : List ℕ) (x : Fin e.N) :
    e.consistentObj P x =
      (classRange e.m).all fun t =>
        !(e.upper_approx_up P t x && !(e.lower_approx_up P t x)) := by
  unfold consistentObj
  simp only [hd]

theorem consistentObj_down (e : DRSA) (hd : e.direction = .down) (P : List ℕ) (x : Fin e.N) :
    e.consistentObj P x =
      (classRange e.m).all fun t =>
        !(e.upper_approx_down P t x && !(e.lower_approx_down P t x)) := by
  unfold consistentObj
  simp only [hd]

theorem consistentObj_mono (e : DRSA) {P Q : List ℕ} (h : P ⊆ Q) {x : Fin e.N}
    (hc : e.consistentObj P x = true) : e.consistentObj Q x = true := by
  cases hd : e.direction
  case up =>
    rw [consistentObj_up e hd] at hc ⊢
    rw [List.all_eq_true] at hc ⊢
    intro t ht
    have hPt := hc t ht
    cases hu : e.upper_approx_up Q t x
    · simp
    · have hup : e.upper_approx_up P t x = true := e.upper_approx_up_anti h hu
      rw [hup] at hPt
      cases hlo : e.lower_approx_up P t x
      · rw [hlo] at hPt
        simp at hPt
      · have hQlo : e.lower_approx_up Q t x = true := e.lower_approx_up_mono h hlo
        rw [hQlo]
        simp
  case down =>
    rw [consistentObj_down e hd] at hc ⊢
    rw [List.all_eq_true] at hc ⊢
    intro t ht
    have hPt := hc t ht
    cases hu : e.upper_approx_down Q t x
    · simp
    · have hup : e.upper_approx_down P t x = true := e.upper_approx_down_anti h hu
      rw [hup] at hPt
      cases hlo : e.lower_approx_down P t x
      · rw [hlo] at hPt
        simp at hPt
      · have hQlo : e.lower_approx_down Q t x = true := e.lower_approx_down_mono h hlo
        rw [hQlo]
        simp

end DRSA

/-- C1: for every fitted engine and every pair of non-empty criteria subsets
`P ⊆ Q` of the configured criteria, `quality(P) ≤ quality(Q)`: enlarging the
criteria set shrinks the dominance cones, hence shrinks every boundary, hence
can only grow the consistent-object count. -/
theorem quality_monotone_in_criteria (e : DRSA) (P Q : List ℕ)
    (hP : P ≠ []) (hQ : Q ≠ []) (hPQ : P ⊆ Q) (hPc : P ⊆ e.criteria)
    (hQc : Q ⊆ e.criteria) : e.quality P ≤ e.quality Q := by
  unfold DRSA.quality
  have hcount : ((List.finRange e.N).countP fun x => e.consistentObj P x) ≤
      (List.finRange e.N).countP fun x => e.consistentObj Q x :=
    List.countP_mono_left fun x _ hx => e.consistentObj_mono hPQ hx
  by_cases hN : (e.N : ℚ) = 0
  · rw [hN, div_zero, div_zero]
  · have hpos : 0 < (e.N : ℚ) :=
      lt_of_le_of_ne (by positivity) (Ne.symm hN)
    exact (div_le_div_iff_of_pos_right hpos).mpr (by exact_mod_cast hcount)

/-- C1 witness: the monotonicity instance `P = [0] ⊆ Q = [0, 1]` on the
two-criteria engine. -/
theorem quality_monotone_in_criteria_witness :
    (([0] : List ℕ) ≠ [] ∧ ([0, 1] : List ℕ) ≠ [] ∧ ([0] : List ℕ) ⊆ [0, 1] ∧
      ([0] : List ℕ) ⊆ scenario2.criteria ∧ ([0, 1] : List ℕ) ⊆ scenario2.criteria) ∧
    scenario2.quality [0] ≤ scenario2.quality [0, 1] :=
  ⟨⟨by decide, by decide, by decide, by decide, by decide⟩,
    quality_monotone_in_criteria scenario2 [0] [0, 1] (by decide) (by decide)
      (by decide) (by decide) (by decide)⟩

/-- C4: the cones are the componentwise dominance comparisons over the given
criteria, and both are reflexive (`cone[x,x] = True`). -/
theorem dominance_cones_componentwise_and_reflexive (e : DRSA) (P : List ℕ)
    (hP : P ≠ []) (y x : Fin e.N) :
    (e.positive_cone P y x = true ↔ ∀ i ∈ P, e.F y i ≥ e.F x i) ∧
    (e.negative_cone P y x = true ↔ ∀ i ∈ P, e.F y i ≤ e.F x i) ∧
    e.positive_cone P x x = true ∧ e.negative_cone P x x = true := by
  refine ⟨e.positive_cone_iff P y x, e.negative_cone_iff P y x, ?_, ?_⟩
  · exact (e.positive_cone_iff P x x).mpr fun i _ => le_refl _
  · exact (e.negative_cone_iff P x x).mpr fun i _ => le_refl _

/-- C4 witness: the componentwise characterization and reflexivity at the
concrete one-criterion scenario, objects 0 and 1. -/
theorem dominance_cones_componentwise_and_reflexive_witness :
    (([0] : List ℕ) ≠ []) ∧
    ((scenario.positive_cone [0] ⟨0, by decide⟩ ⟨1, by decide⟩ = true ↔
        ∀ i ∈ ([0] : List ℕ),
          scenario.F ⟨0, by decide⟩ i ≥ scenario.F ⟨1, by decide⟩ i) ∧
      (scenario.negative_cone [0] ⟨0, by decide⟩ ⟨1, by decide⟩ = true ↔
        ∀ i ∈ ([0] : List ℕ),
          scenario.F ⟨0, by decide⟩ i ≤ scenario.F ⟨1, by decide⟩ i) ∧
      scenario.positive_cone [0] ⟨1, by decide⟩ ⟨1, by decide⟩ = true ∧
      scenario.negative_cone [0] ⟨1, by decide⟩ ⟨1, by decide⟩ = true) :=
  ⟨by decide,
    dominance_cones_componentwise_and_reflexive scenario [0] (by decide)
      ⟨0, by decide⟩ ⟨1, by decide⟩⟩

/-- C5: the upward approximation operators are exactly the quantified
dominance conditions of the spec. -/
theorem upward_approximations_characterization (e : DRSA) (P : List ℕ)
    (hP : P ≠ []) (t : ℤ) (x : Fin e.N) :
    (e.lower_approx_up P t x = true ↔
      ∀ y, e.positive_cone P y x = true → e.decision_attribute y ≥ t) ∧
    (e.upper_approx_up P t x = true ↔
      ∃ y, e.negative_cone P y x = true ∧ e.decision_attribute y ≥ t) :=
  ⟨e.lower_approx_up_iff P t x, e.upper_approx_up_iff P t x⟩

/-- C5 witness: the characterization at the concrete scenario, threshold 2,
object 0. -/
theorem upward_approximations_characterization_witness :
    (([0] : List ℕ) ≠ []) ∧
    ((scenario.lower_approx_up [0] 2 ⟨0, by decide⟩ = true ↔
        ∀ y, scenario.positive_cone [0] y ⟨0, by decide⟩ = true →
          scenario.decision_attribute y ≥ 2) ∧
      (scenario.upper_approx_up [0] 2 ⟨0, by decide⟩ = true ↔
        ∃ y, scenario.negative_cone [0] y ⟨0, by decide⟩ = true ∧
          scenario.decision_attribute y ≥ 2)) :=
  ⟨by decide,
    upward_approximations_characterization scenario [0] (by decide) 2 ⟨0, by decide⟩⟩

/-- C9: every query of an engine that has not been fitted fails with the
not-fitted error (the `assert self.is_fit` guard at the head of each
method). -/
theorem queries_fail_before_fit (P : List ℕ) (t : ℤ) (rs : List (List ℕ))
    (c : List ℕ) (th : ℤ) (b : Bool) :
    Engine.init.positive_cone P = .error .notFitted ∧
    Engine.init.negative_cone P = .error .notFitted ∧
    Engine.init.lower_approx_up P t = .error .notFitted ∧
    Engine.init.upper_approx_up P t = .error .notFitted ∧
    Engine.init.lower_approx_down P t = .error .notFitted ∧
    Engine.init.upper_approx_down P t = .error .notFitted ∧
    Engine.init.quality P = .error .notFitted ∧
    Engine.init.find_reducts = .error .notFitted ∧
    Engine.init.core rs = .error .notFitted ∧
    Engine.init.induce_decision_rules c th b = .error .notFitted :=
  ⟨rfl, rfl, rfl, rfl, rfl, rfl, rfl, rfl, rfl, rfl⟩

/-- C10: on a fitted engine the cones accept the empty criteria tuple without
failing and return the all-True matrix (the mask loop body never runs). -/
theorem empty_criteria_cones_all_true (d : DRSA) (y x : Fin d.N) :
    (Engine.init.fit d).positive_cone [] =
      .ok ((List.finRange d.N).map fun _ => (List.finRange d.N).map fun _ => true) ∧
    (Engine.init.fit d).negative_cone [] =
      .ok ((List.finRange d.N).map fun _ => (List.finRange d.N).map fun _ => true) ∧
    d.positive_cone [] y x = true ∧ d.negative_cone [] y x = true := by
  refine ⟨?_, ?_, rfl, rfl⟩ <;>
    simp [Engine.fit, Engine.init, Engine.positive_cone, Engine.negative_cone,
      DRSA.positive_cone, DRSA.negative_cone]

theorem scenario_find_reducts : scenario.find_reducts = [[0]] := by
  simp [DRSA.find_reducts, DRSA.findReductsGo, DRSA.acceptReduct, combinations, scenario]

/-- C3 (refuting evaluation): on the concrete scenario engine, `core` called
with an empty reducts list does not return the empty tuple: the Python
idiom `reducts = reducts or self.find_reducts()` treats the empty list as
falsy, so the call falls back to `find_reducts()` and returns `(0,)`. -/
theorem core_with_empty_reducts_list :
    scenario.core [] = [0] ∧ ([0] : List ℕ) ≠ [] := by
  constructor
  · simp [DRSA.core, scenario_find_reducts]
  · decide

theorem mem_foldl_inter (a : ℕ) (rest : List (List ℕ)) :
    ∀ init : Finset ℕ,
      a ∈ rest.foldl (fun s red => s ∩ red.toFinset) init ↔
        a ∈ init ∧ ∀ red ∈ rest, a ∈ red := by
  induction rest with
  | nil => simp
  | cons r rest ih =>
    intro init
    rw [List.foldl_cons, ih]
    simp only [Finset.mem_inter, List.mem_toFinset, List.forall_mem_cons]
    tauto

/-- C8: for a non-empty reducts list, membership in `core(reducts)` is
exactly membership in every given reduct; in particular the returned tuple
is contained in each reduct. -/
theorem core_is_intersection_of_reducts (e : DRSA) (rs : List (List ℕ))
    (hne : rs ≠ []) (a : ℕ) : a ∈ e.core rs ↔ ∀ red ∈ rs, a ∈ red := by
  unfold DRSA.core
  have hfalse : rs.isEmpty = false := by
    cases rs with
    | nil => exact absurd rfl hne
    | cons r0 rest => rfl
  cases rs with
  | nil => exact absurd rfl hne
  | cons r0 rest =>
    simp only [hfalse, Bool.false_eq_true, if_false]
    rw [Finset.mem_sort, mem_foldl_inter]
    simp [List.mem_toFinset]

/-- C8 witness: the characterization at the scenario engine with the reduct
list `[(0,)]` and criterion 0. -/
theorem core_is_intersection_of_reducts_witness :
    ([[0]] : List (List ℕ)) ≠ [] ∧
      (0 ∈ scenario.core [[0]] ↔ ∀ red ∈ ([[0]] : List (List ℕ)), 0 ∈ red) :=
  ⟨by decide, core_is_intersection_of_reducts scenario [[0]] (by decide) 0⟩

theorem mem_combinations {α : Type} (l : List α) :
    ∀ (r : ℕ) (S : List α), S ∈ combinations r l ↔ S.Sublist l ∧ S.length = r := by
  induction l with
  | nil =>
    intro r S
    cases r with
    | zero =>
      simp only [combinations, List.mem_singleton]
      constructor
      · rintro rfl; exact ⟨List.Sublist.refl _, rfl⟩
      · rintro ⟨hs, -⟩; exact List.sublist_nil.mp hs
    | succ r =>
      simp only [combinations, List.not_mem_nil, false_iff, not_and]
      intro hs
      rw [List.sublist_nil.mp hs]
      simp
  | cons a l ih =>
    intro r S
    cases r with
    | zero =>
      simp only [combinations, List.mem_singleton]
      constructor
      · rintro rfl; exact ⟨List.nil_sublist _, rfl⟩
      · rintro ⟨-, hl⟩; exact List.length_eq_zero.mp hl
    | succ r =>
      simp only [combinations, List.mem_append, List.mem_map]
      rw [List.sublist_cons_iff]
      constructor
      · rintro (⟨T, hT, rfl⟩ | h)
        · have hT' := (ih r T).mp hT
          exact ⟨Or.inr ⟨T, rfl, hT'.1⟩, by simp [hT'.2]⟩
        · have h' := (ih (r + 1) S).mp h
          exact ⟨Or.inl h'.1, h'.2⟩
      · rintro ⟨hsub | ⟨T, rfl, hT⟩, hlen⟩
        · exact Or.inr ((ih (r + 1) S).mpr ⟨hsub, hlen⟩)
        · exact Or.inl ⟨T, (ih r T).mpr ⟨hT, by simpa using hlen⟩, rfl⟩

theorem combinations_eq_nil {α : Type} (l : List α) (r : ℕ) (h : l.length < r) :
    combinations r l = [] := by
  rw [List.eq_nil_iff_forall_not_mem]
  intro S hS
  have hS' := (mem_combinations l r S).mp hS
  have := hS'.1.length_le
  rw [hS'.2] at this
  exact absurd this (Nat.not_le.mpr h)

theorem combinations_self {α : Type} (l : List α) : combinations l.length l = [l] := by
  induction l with
  | nil => rfl
  | cons a l ih =>
    show ((combinations l.length l).map fun s => a :: s) ++
        combinations (l.length + 1) l = [a :: l]
    rw [ih, combinations_eq_nil l (l.length + 1) (Nat.lt_succ_self _)]
    rfl

theorem list_subset_iff_all (red subset : List ℕ) :
    (red.all fun a => decide (a ∈ subset)) = true ↔ red ⊆ subset := by
  simp [List.all_eq_true, List.subset_def]

theorem subset_rev_of_nodup {S T : List ℕ} (hS : S.Nodup) (hT : T.Nodup)
    (hsub : S ⊆ T) (hlen : T.length ≤ S.length) : T ⊆ S := by
  have h1 : S.toFinset ⊆ T.toFinset := by
    intro a ha
    rw [List.mem_toFinset] at ha ⊢
    exact hsub ha
  have h2 : T.toFinset.card ≤ S.toFinset.card := by
    rw [List.toFinset_card_of_nodup hS, List.toFinset_card_of_nodup hT]
    exact hlen
  have heq := Finset.eq_of_subset_of_card_le h1 h2
  intro a ha
  have : a ∈ S.toFinset := by
    rw [heq]
    exact List.mem_toFinset.mpr ha
  exact List.mem_toFinset.mp this

theorem acceptReduct_foldl_inv (e : DRSA) (fullq : ℚ) (r : ℕ)
    (hnd : e.criteria.Nodup) :
    ∀ (l acc : List (List ℕ)),
      (∀ s ∈ l, s ∈ combinations r e.criteria) →
      (∀ S ∈ acc, e.quality S = fullq ∧ S ∈ combinations r e.criteria) →
      List.Pairwise (fun S T => ¬S ⊆ T ∧ ¬T ⊆ S) acc →
      (∀ S ∈ l.foldl (e.acceptReduct fullq) acc,
          e.quality S = fullq ∧ S ∈ combinations r e.criteria) ∧
        List.Pairwise (fun S T => ¬S ⊆ T ∧ ¬T ⊆ S)
          (l.foldl (e.acceptReduct fullq) acc) := by
  intro l
  induction l with
  | nil =>
    intro acc _ hacc hpw
    exact ⟨hacc, hpw⟩
  | cons s l ih =>
    intro acc hl hacc hpw
    have hs : s ∈ combinations r e.criteria := hl s (List.mem_cons_self _ _)
    have hl' : ∀ x ∈ l, x ∈ combinations r e.criteria := fun x hx =>
      hl x (List.mem_cons_of_mem _ hx)
    rw [List.foldl_cons]
    unfold DRSA.acceptReduct
    split
    case isTrue hcond =>
      apply ih _ hl'
      · intro S hS
        rcases List.mem_append.mp hS with h | h
        · exact hacc S h
        · rw [List.mem_singleton] at h
          subst h
          exact ⟨hcond.1, hs⟩
      · rw [List.pairwise_append]
        refine ⟨hpw, List.pairwise_singleton _ _, ?_⟩
        intro S hS s' hs'
        rw [List.mem_singleton] at hs'
        subst s'
        have hnotany := hcond.2
        have hnSsub : ¬S ⊆ s := by
          intro hsub
          have : (acc.any fun red => red.all fun a => decide (a ∈ s)) = true :=
            List.any_eq_true.mpr ⟨S, hS, (list_subset_iff_all S s).mpr hsub⟩
          rw [hnotany] at this
          cases this
        refine ⟨hnSsub, fun hsub => ?_⟩
        have hSprop := (mem_combinations e.criteria r S).mp (hacc S hS).2
        have hsprop := (mem_combinations e.criteria r s).mp hs
        have hSnd : S.Nodup := hSprop.1.nodup hnd
        have hsnd : s.Nodup := hsprop.1.nodup hnd
        exact hnSsub
          (subset_rev_of_nodup hsnd hSnd hsub (by rw [hSprop.2, hsprop.2]))
    case isFalse hcond =>
      exact ih acc hl' hacc hpw

theorem findReductsGo_spec (e : DRSA) (fullq : ℚ) (hnd : e.criteria.Nodup)
    (sizes : List ℕ) :
    (∀ S ∈ e.findReductsGo fullq sizes, e.quality S = fullq) ∧
      List.Pairwise (fun S T => ¬S ⊆ T ∧ ¬T ⊆ S)
        (e.findReductsGo fullq sizes) := by
  induction sizes with
  | nil =>
    constructor
    · intro S hS
      cases hS
    · exact List.Pairwise.nil
  | cons r rs ih =>
    rw [DRSA.findReductsGo]
    have hinv := acceptReduct_foldl_inv e fullq r hnd (combinations r e.criteria) []
      (fun s hs => hs) (by intro S hS; cases hS) List.Pairwise.nil
    split
    · exact ih
    · exact ⟨fun S hS => (hinv.1 S hS).1, hinv.2⟩

theorem foldl_acceptReduct_nil (e : DRSA) (fullq : ℚ) :
    ∀ l : List (List ℕ), (∀ s ∈ l, e.quality s ≠ fullq) →
      l.foldl (e.acceptReduct fullq) [] = [] := by
  intro l
  induction l with
  | nil => intro _; rfl
  | cons s l ih =>
    intro h
    rw [List.foldl_cons]
    have : e.acceptReduct fullq [] s = [] := by
      unfold DRSA.acceptReduct
      rw [if_neg]
      intro hcond
      exact h s (List.mem_cons_self _ _) hcond.1
    rw [this]
    exact ih fun x hx => h x (List.mem_cons_of_mem _ hx)

theorem findReductsGo_append (e : DRSA) (fullq : ℚ) (l1 l2 : List ℕ)
    (h : ∀ r ∈ l1, (combinations r e.criteria).foldl (e.acceptReduct fullq) [] = []) :
    e.findReductsGo fullq (l1 ++ l2) = e.findReductsGo fullq l2 := by
  induction l1 with
  | nil => rfl
  | cons r l1 ih =>
    rw [List.cons_append, DRSA.findReductsGo]
    have hr : (combinations r e.criteria).foldl (e.acceptReduct fullq) [] = [] :=
      h r (List.mem_cons_self _ _)
    rw [hr]
    simp only [List.isEmpty_nil, if_true]
    exact ih fun x hx => h x (List.mem_cons_of_mem _ hx)

/-- C2: on a fitted engine (with the unique criteria indices the data model
requires), `find_reducts` returns a non-empty list; every returned subset has
full quality; no returned subset is contained in another returned subset; and
when no non-empty proper criteria subset preserves full quality the full
criteria set is returned as the sole reduct. -/
theorem find_reducts_sound (e : DRSA) (hnd : e.criteria.Nodup) :
    e.find_reducts ≠ [] ∧
    (∀ S ∈ e.find_reducts, e.quality S = e.quality e.criteria) ∧
    List.Pairwise (fun S T => ¬S ⊆ T ∧ ¬T ⊆ S) e.find_reducts ∧
    ((∀ S : List ℕ, S ≠ [] → S.Sublist e.criteria →
        S.length < e.criteria.length → e.quality S ≠ e.quality e.criteria) →
      e.find_reducts = [e.criteria]) := by
  have hspec := findReductsGo_spec e (e.quality e.criteria) hnd
    (List.range' 1 e.criteria.length)
  have hval : e.find_reducts =
      if (e.findReductsGo (e.quality e.criteria)
            (List.range' 1 e.criteria.length)).isEmpty then
        [e.criteria]
      else e.findReductsGo (e.quality e.criteria)
        (List.range' 1 e.criteria.length) := rfl
  refine ⟨?_, ?_, ?_, ?_⟩
  · rw [hval]
    split
    · exact List.cons_ne_nil _ _
    · next h =>
      intro hn
      exact h (by rw [hn]; rfl)
  · rw [hval]
    split
    · intro S hS
      rw [List.mem_singleton] at hS
      subst S
      rfl
    · exact hspec.1
  · rw [hval]
    split
    · exact List.pairwise_singleton _ _
    · exact hspec.2
  · intro hps
    rcases hn : e.criteria.length with _ | n
    · rw [hval, hn]
      simp [DRSA.findReductsGo]
    · have hfail : ∀ r ∈ List.range' 1 n,
          (combinations r e.criteria).foldl
            (e.acceptReduct (e.quality e.criteria)) [] = [] := by
        intro r hr
        rw [List.mem_range'] at hr
        obtain ⟨i, hi, rfl⟩ := hr
        apply foldl_acceptReduct_nil
        intro s hs
        have hsprop := (mem_combinations e.criteria _ s).mp hs
        apply hps
        · intro hnil
          rw [hnil] at hsprop
          have h0 := hsprop.2
          simp only [List.length_nil] at h0
          omega
        · exact hsprop.1
        · rw [hsprop.2, hn]
          omega
      have hres : e.findReductsGo (e.quality e.criteria)
          (List.range' 1 (n + 1)) = [e.criteria] := by
        have hsplit : List.range' 1 (n + 1) = List.range' 1 n ++ [1 + 1 * n] :=
          List.range'_concat 1 n
        rw [hsplit, findReductsGo_append e _ _ _ hfail]
        have hacc1 : e.acceptReduct (e.quality e.criteria) [] e.criteria =
            [e.criteria] := by
          unfold DRSA.acceptReduct
          rw [if_pos ⟨rfl, rfl⟩]
          rfl
        rw [DRSA.findReductsGo]
        have h11 : 1 + 1 * n = e.criteria.length := by omega
        rw [h11, combinations_self]
        simp only [List.foldl_cons, List.foldl_nil, hacc1]
        rfl
      rw [hval, hn, hres]
      rfl

/-- C2 witness: the concrete scenario; its single criterion has no non-empty
proper subset, so the sole-reduct clause applies with `[(0,)]`. -/
theorem find_reducts_sound_witness :
    scenario.criteria.Nodup ∧
    (scenario.find_reducts ≠ [] ∧
      (∀ S ∈ scenario.find_reducts,
        scenario.quality S = scenario.quality scenario.criteria) ∧
      List.Pairwise (fun S T => ¬S ⊆ T ∧ ¬T ⊆ S) scenario.find_reducts ∧
      ((∀ S : List ℕ, S ≠ [] → S.Sublist scenario.criteria →
          S.length < scenario.criteria.length →
          scenario.quality S ≠ scenario.quality scenario.criteria) →
        scenario.find_reducts = [scenario.criteria])) :=
  ⟨by decide, find_reducts_sound scenario (by decide)⟩

theorem scenario2_rules :
    scenario2.induce_decision_rules [0, 1] 2 true = [ruleA, ruleB] := by
  simp [DRSA.induce_decision_rules, DRSA.rawRules, DRSA.dedupStep, DRSA.objectRule,
    DRSA.is_robust, DRSA.subsumes, DRSA.premiseMask, DRSA.dirComp,
    DRSA.lower_approx_up, DRSA.upper_approx_up, DRSA.positive_cone, DRSA.negative_cone,
    DRSA.make_rule_description, scenario2, ruleA, ruleB, List.finRange, certainKind,
    possibleKind, goodConcl, List.lookup]

/-- C6: with `minimal=True` no returned rule is subsumed by another distinct
returned rule (`subsumes r1 r2` checks equal conclusions, key containment and
the direction-mirrored threshold comparison). -/
theorem minimal_rules_not_mutually_subsumed (e : DRSA) (criteria0 : List ℕ)
    (threshold : ℤ) (r1 r2 : Rule)
    (h1 : r1 ∈ e.induce_decision_rules criteria0 threshold true)
    (h2 : r2 ∈ e.induce_decision_rules criteria0 threshold true)
    (hne : r1 ≠ r2) : e.subsumes r1 r2 = false := by
  replace h1 : r1 ∈ (e.rawRules criteria0 threshold).filter
      (fun s => !((e.rawRules criteria0 threshold).any
        fun s' => decide (s' ≠ s) && e.subsumes s s')) := h1
  replace h2 : r2 ∈ (e.rawRules criteria0 threshold).filter
      (fun s => !((e.rawRules criteria0 threshold).any
        fun s' => decide (s' ≠ s) && e.subsumes s s')) := h2
  rw [List.mem_filter] at h1 h2
  obtain ⟨h1m, h1f⟩ := h1
  obtain ⟨h2m, -⟩ := h2
  rw [Bool.not_eq_true'] at h1f
  have hx := List.any_eq_false.mp h1f r2 h2m
  cases hs : e.subsumes r1 r2
  · rfl
  · exfalso
    apply hx
    have hdec : decide (r2 ≠ r1) = true := decide_eq_true fun h => hne h.symm
    rw [hdec, hs]
    rfl

/-- C6 witness: the two incomparable certain rules of the two-criteria
engine. -/
theorem minimal_rules_not_mutually_subsumed_witness :
    (ruleA ∈ scenario2.induce_decision_rules [0, 1] 2 true ∧
      ruleB ∈ scenario2.induce_decision_rules [0, 1] 2 true ∧ ruleA ≠ ruleB) ∧
    scenario2.subsumes ruleA ruleB = false :=
  ⟨⟨by rw [scenario2_rules]; exact List.mem_cons_self _ _,
    by rw [scenario2_rules]; exact List.mem_cons_of_mem _ (List.mem_cons_self _ _),
    by decide⟩,
    minimal_rules_not_mutually_subsumed scenario2 [0, 1] 2 ruleA ruleB
      (by rw [scenario2_rules]; exact List.mem_cons_self _ _)
      (by rw [scenario2_rules]; exact List.mem_cons_of_mem _ (List.mem_cons_self _ _))
      (by decide)⟩

theorem dedupStep_robust_inv (e : DRSA) :
    ∀ (l : List Rule) (st : List Desc × List Rule),
      (∀ r ∈ st.2, e.is_robust r = true) →
      ∀ r ∈ (l.foldl e.dedupStep st).2, e.is_robust r = true := by
  intro l
  induction l with
  | nil =>
    intro st h r hr
    exact h r hr
  | cons a l ih =>
    intro st h
    rw [List.foldl_cons]
    apply ih
    unfold DRSA.dedupStep
    split
    · exact h
    · intro r hr
      dsimp only [] at hr
      by_cases hrob : e.is_robust a = true
      · rw [if_pos hrob] at hr
        rcases List.mem_append.mp hr with hold | hnew
        · exact h r hold
        · rw [List.mem_singleton] at hnew
          subst r
          exact hrob
      · rw [if_neg hrob] at hr
        exact h r hr

theorem rawRules_robust (e : DRSA) (c : List ℕ) (t : ℤ) :
    ∀ r ∈ e.rawRules c t, e.is_robust r = true := by
  intro r hr
  unfold DRSA.rawRules at hr
  exact dedupStep_robust_inv e _ ([], []) (by intro x hx; cases hx) r hr

/-- C7: every rule returned by `induce_decision_rules` has a supporting
object that matches every profiled criterion by exact equality and satisfies
the rule's premise (the `is_robust` filter). -/
theorem induced_rules_are_robust (e : DRSA) (criteria0 : List ℕ) (threshold : ℤ)
    (minimal : Bool) (r : Rule)
    (h : r ∈ e.induce_decision_rules criteria0 threshold minimal) :
    ∃ y : Fin e.N, (∀ p ∈ r.profile, e.F y p.1 = p.2) ∧
      e.premiseMask e.dirComp r.profile y = true := by
  have hraw : r ∈ e.rawRules criteria0 threshold := by
    unfold DRSA.induce_decision_rules at h
    cases minimal
    · exact h
    · exact (List.mem_filter.mp h).1
  have hrob := rawRules_robust e criteria0 threshold r hraw
  unfold DRSA.is_robust at hrob
  rw [List.any_eq_true] at hrob
  obtain ⟨y, -, hy⟩ := hrob
  rw [Bool.and_eq_true] at hy
  refine ⟨y, ?_, hy.2⟩
  have hall := hy.1
  rw [List.all_eq_true] at hall
  intro p hp
  exact of_decide_eq_true (hall p hp)

/-- C7 witness: the robustness of the first returned rule of the two-criteria
engine. -/
theorem induced_rules_are_robust_witness :
    ruleA ∈ scenario2.induce_decision_rules [0, 1] 2 true ∧
    ∃ y : Fin scenario2.N, (∀ p ∈ ruleA.profile, scenario2.F y p.1 = p.2) ∧
      scenario2.premiseMask scenario2.dirComp ruleA.profile y = true :=
  ⟨by rw [scenario2_rules]; exact List.mem_cons_self _ _,
    induced_rules_are_robust scenario2 [0, 1] 2 true ruleA
      (by rw [scenario2_rules]; exact List.mem_cons_self _ _)⟩
